import Mathlib

/-!
# Verification of the boot-crawler web crawler

This file gives a shallow embedding of the two source files of the
repository (`src/crawl.js` and `src/report.js`) and proves, or refutes,
a list of claims about them.

The JavaScript code relies on the WHATWG `URL` platform class.  That class
is modelled here by `parseURL` over the fragment of URL syntax the crawler
works with: absolute hierarchical URLs of the form
`scheme://[userinfo@]host[:port]path[?query][#fragment]`.  The model keeps
the behaviour the crawler's code depends on: parsing splits the input into
components, the scheme and host are ASCII-lowercased, the `pathname`
component excludes the query string and the fragment and defaults to "/",
and parsing fails (the constructor throws `TypeError`) on inputs that do
not start with `scheme://`.  Unicode case mapping, percent-encoding,
dot-segment normalisation and scheme-specific opaque paths are outside the
modelled fragment.  Lowercasing is modelled with `Char.toLower`, i.e. on
basic latin letters, as in the rest of this development.
-/

/-- Characters allowed in a URL scheme (RFC 3986 / WHATWG). -/
def schemeChar (c : Char) : Bool :=
  c.isAlpha || c.isDigit || c == '+' || c == '-' || c == '.'

/-- Characters that terminate the authority component. -/
def authEnd (c : Char) : Bool :=
  c == '/' || c == '?' || c == '#'

/-- Characters that may not appear in a parsed host. -/
def hostBad (c : Char) : Bool :=
  c == ':' || c == '/' || c == '?' || c == '#' || c == '@' || c == '\\' || c == ' '

/-- Characters that terminate the path component. -/
def pathEnd (c : Char) : Bool :=
  c == '?' || c == '#'

/-- A scheme is valid when nonempty, starts with a letter and uses scheme characters. -/
def schemeOkB (l : List Char) : Bool :=
  match l with
  | [] => false
  | c :: _ => c.isAlpha && l.all schemeChar

/-- A host is valid when nonempty and free of delimiter characters. -/
def hostOkB (l : List Char) : Bool :=
  !l.isEmpty && l.all fun c => !hostBad c

/-- Drop the userinfo part of an authority: keep what follows the last `@`. -/
def afterLastAt (l : List Char) : List Char :=
  ((l.reverse.takeWhile fun c => !(c == '@')).reverse)

/-- Split `host[:port]` at the first `:`. -/
def splitPort (l : List Char) : List Char × List Char :=
  let h := l.takeWhile fun c => !(c == ':')
  (h, (l.drop h.length).drop 1)

/-- The components the crawler reads off a parsed `URL` object. -/
structure URLRec where
  scheme : String
  hostname : String
  port : String
  pathname : String
  search : String
  hash : String
deriving DecidableEq, Repr

/-- Model of the WHATWG `new URL(url)` constructor on absolute hierarchical
URLs (`none` models the constructor throwing `TypeError`). -/
def parseURL (url : String) : Option URLRec :=
  let cs := url.data
  let schRaw := cs.takeWhile schemeChar
  let sch := schRaw.map Char.toLower
  match cs.drop schRaw.length with
  | ':' :: '/' :: '/' :: rest2 =>
    if schemeOkB sch then
      let auth := rest2.takeWhile fun c => !authEnd c
      let rest3 := rest2.drop auth.length
      let hp := splitPort (afterLastAt auth)
      let host := hp.1.map Char.toLower
      if hostOkB host && hp.2.all Char.isDigit then
        let path := rest3.takeWhile fun c => !pathEnd c
        let rest4 := rest3.drop path.length
        let srch := rest4.takeWhile fun c => !(c == '#')
        some { scheme := String.mk sch
               hostname := String.mk host
               port := String.mk hp.2
               pathname := String.mk (if path.isEmpty then ['/'] else path)
               search := String.mk srch
               hash := String.mk (rest4.drop srch.length) }
      else none
    else none
  | _ => none

/-- `hostname.slice(4)` applied when the host starts with `www.`
(`src/crawl.js`, lines 20-22). -/
def stripWWW (h : List Char) : List Char :=
  if ['w', 'w', 'w', '.'].isPrefixOf h then h.drop 4 else h

/-- `pathname.slice(0, -1)` applied when the path ends with `/`
(`src/crawl.js`, lines 25-27). -/
def stripSlash (p : List Char) : List Char :=
  if p.getLast? = some '/' then p.dropLast else p

/-- The key built by `normalizeURL` from a parsed URL:
`` `${hostname}${pathname}`.toLowerCase() `` after the `www.` and trailing
slash adjustments (`src/crawl.js`, lines 16-29). -/
def normKey (r : URLRec) : String :=
  String.mk ((stripWWW r.hostname.data ++ stripSlash r.pathname.data).map Char.toLower)

/-- `normalizeURL` from `src/crawl.js` (lines 11-32).  The JavaScript
function throws on a malformed URL; that is modelled by `none`. -/
def normalizeURL (url : String) : Option String :=
  (parseURL url).map normKey

example : parseURL "example.com/path" = none := by decide
example : normalizeURL "https://example.com/path" = some "example.com/path" := by decide
example : normalizeURL "https://WWW.Example.com/Path/" = some "example.com/path" := by decide
example : normalizeURL "http://site.com" = some "site.com" := by decide
example : normalizeURL "https://example.com/p?a=1" = some "example.com/p" := by decide

/-- The WHATWG serialisation of a parsed URL, read back by `.href`. -/
def serializeURL (r : URLRec) : String :=
  String.mk (r.scheme.data ++ [':', '/', '/'] ++ r.hostname.data ++
    (if r.port.data.isEmpty then [] else ':' :: r.port.data) ++
    r.pathname.data ++ r.search.data ++ r.hash.data)

/-- Split a reference into path, query and fragment parts. -/
def splitRef (l : List Char) : List Char × List Char × List Char :=
  let p := l.takeWhile fun c => !pathEnd c
  let rest := l.drop p.length
  let q := rest.takeWhile fun c => !(c == '#')
  (p, q, rest.drop q.length)

/-- The directory part of a path: everything up to and including the last `/`. -/
def dirOf (p : List Char) : List Char :=
  (p.reverse.dropWhile fun c => !(c == '/')).reverse

/-- Resolution of a relative reference against a parsed base URL
(standard URL-resolution rules, on the modelled fragment; dot segments are
not collapsed and scheme-relative special forms are out of scope). -/
def resolveRel (href : List Char) (b : URLRec) : Option URLRec :=
  match href with
  | [] => some { b with hash := "" }
  | '/' :: '/' :: _ => parseURL (String.mk (b.scheme.data ++ [':'] ++ href))
  | '/' :: _ =>
    let s := splitRef href
    some { b with pathname := String.mk s.1, search := String.mk s.2.1,
                  hash := String.mk s.2.2 }
  | '?' :: _ =>
    let q := href.takeWhile fun c => !(c == '#')
    some { b with search := String.mk q, hash := String.mk (href.drop q.length) }
  | '#' :: _ => some { b with hash := String.mk href }
  | _ =>
    let s := splitRef href
    some { b with pathname := String.mk (dirOf b.pathname.data ++ s.1),
                  search := String.mk s.2.1, hash := String.mk s.2.2 }

/-- Model of the two-argument constructor `new URL(href, baseURL)`: the
base is parsed first (the constructor throws when it is malformed), an
absolute `href` wins, otherwise `href` is resolved against the base. -/
def resolveURL (href baseURL : String) : Option URLRec :=
  match parseURL baseURL with
  | none => none
  | some b =>
    match parseURL href with
    | some r => some r
    | none => resolveRel href.data b

/-- `getURLsFromHTML` from `src/crawl.js` (lines 41-56).  HTML parsing is
abstracted as the spec directs: the input is the document-order list of
`href` attribute values of the anchor elements.  Each value is resolved
against `baseURL`; ones that fail to resolve are logged and dropped
(`map` to `null` followed by the `filter`), the rest contribute the
`.href` serialisation of the constructed URL. -/
def getURLsFromHTML (hrefs : List String) (baseURL : String) : List String :=
  hrefs.filterMap fun href => (resolveURL href baseURL).map serializeURL

example : getURLsFromHTML ["/path", "https://other.com/x", "b.html", "%%"]
    "https://example.com/dir/page" =
    ["https://example.com/path", "https://other.com/x",
     "https://example.com/dir/b.html", "https://example.com/dir/%%"] := by decide

/-- The visit table and the log of attempted fetches.  The table is an
association list in insertion order, which is exactly how a JavaScript
object with string keys behaves; the fetch log records the URLs passed to
`fetchHTML`, in order. -/
structure CrawlState where
  pages : List (String × Nat)
  fetched : List String
deriving DecidableEq, Repr

/-- Property read `pages[key]` on the visit table. -/
def lookupCount : List (String × Nat) → String → Option Nat
  | [], _ => none
  | (k, c) :: t, q => if k = q then some c else lookupCount t q

/-- `pages[key]++` (`src/crawl.js`, line 109). -/
def bumpCount : List (String × Nat) → String → List (String × Nat)
  | [], _ => []
  | (k, c) :: t, q => if k = q then (k, c + 1) :: t else (k, c) :: bumpCount t q

/-- `pages[key] = 1` (`src/crawl.js`, line 115). -/
def setCountOne : List (String × Nat) → String → List (String × Nat)
  | [], q => [(q, 1)]
  | (k, c) :: t, q => if k = q then (k, 1) :: t else (k, c) :: setCountOne t q

/-- A web fixture: for each URL, `some links` means `fetchHTML` succeeds
and `getURLsFromHTML` extracts `links` from the returned HTML; `none`
means the fetch fails (network error, HTTP status ≥ 400 or a non-HTML
content type).  A URL absent from the fixture fails with a network
error. -/
abbrev Web := List (String × Option (List String))

/-- Fetch a URL against a web fixture. -/
def webFetch : Web → String → Option (List String)
  | [], _ => none
  | (u, r) :: t, q => if u = q then r else webFetch t q

/-- All link occurrences stored anywhere in a web fixture. -/
def allLinks : Web → List String
  | [] => []
  | (_, r) :: t => r.getD [] ++ allLinks t

deriving instance DecidableEq for Except

/-- The `for (const nextURL of nextURLs)` loop of `crawlPage`
(`src/crawl.js`, lines 128-131): each recursive call's returned table is
threaded into the next sibling; a thrown error (`Except.error`) aborts the
loop and propagates; `none` is fuel exhaustion of the model. -/
def crawlList (f : String → CrawlState → Option (Except String CrawlState)) :
    List String → CrawlState → Option (Except String CrawlState)
  | [], st => some (.ok st)
  | u :: us, st =>
    match f u st with
    | none => none
    | some (.error e) => some (.error e)
    | some (.ok st') => crawlList f us st'

/-- `crawlPage` from `src/crawl.js` (lines 93-133).  The `fuel` argument
makes the recursion structural; `none` means the fuel ran out, and the
termination theorem shows enough fuel always exists.  `Except.error u`
models an uncaught `TypeError` thrown by `new URL` on the malformed URL
`u`; the error value names that URL.  The source computes the key as
`normalizeURL(currentURL)`, which re-parses `currentURL`; since
`parseURL currentURL` has already succeeded here, that call is written as
`normKey currentObj` (`normalizeURL_parse` relates the two).  `console.log`
output is not part of the model apart from the fetch log. -/
def crawlPage (web : Web) (baseURL : String) :
    Nat → String → CrawlState → Option (Except String CrawlState)
  | 0, _, _ => none
  | fuel + 1, currentURL, st =>
    match parseURL currentURL with
    | none => some (.error currentURL)
    | some currentObj =>
      match parseURL baseURL with
      | none => some (.error baseURL)
      | some baseObj =>
        if currentObj.hostname ≠ baseObj.hostname then
          some (.ok st)
        else
          let key := normKey currentObj
          if (lookupCount st.pages key).getD 0 > 0 then
            some (.ok { st with pages := bumpCount st.pages key })
          else
            let st1 : CrawlState :=
              { pages := setCountOne st.pages key, fetched := st.fetched ++ [currentURL] }
            match webFetch web currentURL with
            | none => some (.ok st1)
            | some links => crawlList (crawlPage web baseURL fuel) links st1

example :
    crawlPage [("http://site.com/a", some ["http://site.com/b"]),
               ("http://site.com/b", some ["http://site.com/a"])]
      "http://site.com/a" 5 "http://site.com/a" ⟨[], []⟩ =
    some (.ok ⟨[("site.com/a", 2), ("site.com/b", 1)],
               ["http://site.com/a", "http://site.com/b"]⟩) := by decide

/-- Code-point lexicographic comparison of strings; this models
`String.prototype.localeCompare` as used by `sortPages` (the tie-break on
keys), with collation simplified to code-point order. -/
def lexLeB : List Char → List Char → Bool
  | [], _ => true
  | _ :: _, [] => false
  | a :: as, b :: bs => if a < b then true else if b < a then false else lexLeB as bs

/-- The order implemented by the comparator of `sortPages`
(`src/report.js`, lines 28-33): higher count first, and on equal counts
the key that compares smaller first. -/
def pageLE (a b : String × Nat) : Prop :=
  b.2 < a.2 ∨ (a.2 = b.2 ∧ lexLeB a.1.data b.1.data = true)

instance : DecidableRel pageLE := fun a b => by
  unfold pageLE; infer_instance

/-- `sortPages` from `src/report.js` (lines 26-36): `Object.entries`
produces the association pairs in insertion order, and `Array.sort` with
the comparator produces a sequence ordered by `pageLE`; a comparison sort
with that comparator is modelled by insertion sort, whose output the
antisymmetry of `pageLE` pins down uniquely. -/
def sortPages (pages : List (String × Nat)) : List (String × Nat) :=
  List.insertionSort pageLE pages

example : sortPages [("b", 2), ("a", 2), ("c", 7)] =
    [("c", 7), ("a", 2), ("b", 2)] := by decide

/-- The count stored for a key, with absent keys reading as 0 (JavaScript
`pages[key]` reads `undefined`, and `undefined > 0` is false). -/
def getCount (ps : List (String × Nat)) (k : String) : Nat :=
  (lookupCount ps k).getD 0

/-- The keys of a visit table, in insertion order. -/
def keysOf (ps : List (String × Nat)) : List String :=
  ps.map Prod.fst

/-- How many logged fetches were made for URLs normalizing to key `k`. -/
def countFetched (st : CrawlState) (k : String) : Nat :=
  (st.fetched.filter fun u => normalizeURL u == some k).length

/-- Counts never decrease and keys are never removed. -/
def Mono (s t : CrawlState) : Prop :=
  ∀ k c, lookupCount s.pages k = some c → ∃ c', lookupCount t.pages k = some c' ∧ c ≤ c'

/-- Every stored count is positive. -/
def PosTable (s : CrawlState) : Prop :=
  ∀ k c, lookupCount s.pages k = some c → 1 ≤ c

/-- The key `k` originates from a URL whose (raw) host is `hostname`. -/
def FromHost (hostname k : String) : Prop :=
  ∃ r : URLRec, r.hostname = hostname ∧ normKey r = k

/-- Every key of `t` was already in `s` or originates from the base host. -/
def KeysFrom (hostname : String) (s t : CrawlState) : Prop :=
  ∀ k, k ∈ keysOf t.pages → k ∈ keysOf s.pages ∨ FromHost hostname k

/-- Each key has been fetched exactly once if visited, never otherwise. -/
def FetchBal (s : CrawlState) : Prop :=
  ∀ k, countFetched s k = if getCount s.pages k = 0 then 0 else 1

/-- The conjunction of all step invariants of the crawler, relative to the
base host. -/
def CrawlStep (hostname : String) (s t : CrawlState) : Prop :=
  Mono s t ∧ (PosTable s → PosTable t) ∧ KeysFrom hostname s t ∧ (FetchBal s → FetchBal t)

theorem lexLeB_total : ∀ x y : List Char, lexLeB x y = true ∨ lexLeB y x = true
  | [], _ => Or.inl rfl
  | _ :: _, [] => Or.inr rfl
  | a :: as, b :: bs => by
    rcases lt_trichotomy a b with hab | hab | hab
    · left; simp [lexLeB, hab]
    · subst hab
      rcases lexLeB_total as bs with h | h
      · left; simp [lexLeB, h]
      · right; simp [lexLeB, h]
    · right; simp [lexLeB, hab]

theorem lexLeB_trans : ∀ x y z : List Char,
    lexLeB x y = true → lexLeB y z = true → lexLeB x z = true
  | [], _, _, _, _ => rfl
  | _ :: _, [], _, h, _ => by simp [lexLeB] at h
  | _ :: _, _ :: _, [], _, h2 => by simp [lexLeB] at h2
  | a :: as, b :: bs, c :: cs, h1, h2 => by
    simp only [lexLeB] at h1 h2 ⊢
    rcases lt_trichotomy a b with hab | hab | hab
    · rcases lt_trichotomy b c with hbc | hbc | hbc
      · rw [if_pos (hab.trans hbc)]
      · subst hbc; rw [if_pos hab]
      · rw [if_neg (lt_asymm hbc), if_pos hbc] at h2; exact Bool.noConfusion h2
    · subst hab
      rcases lt_trichotomy a c with hac | hac | hac
      · rw [if_pos hac]
      · subst hac
        rw [if_neg (lt_irrefl a), if_neg (lt_irrefl a)] at h1 h2 ⊢
        exact lexLeB_trans as bs cs h1 h2
      · rw [if_neg (lt_asymm hac), if_pos hac] at h2; exact Bool.noConfusion h2
    · rw [if_neg (lt_asymm hab), if_pos hab] at h1; exact Bool.noConfusion h1

theorem lexLeB_antisymm : ∀ x y : List Char,
    lexLeB x y = true → lexLeB y x = true → x = y
  | [], [], _, _ => rfl
  | [], _ :: _, _, h2 => by simp [lexLeB] at h2
  | _ :: _, [], h1, _ => by simp [lexLeB] at h1
  | a :: as, b :: bs, h1, h2 => by
    simp only [lexLeB] at h1 h2
    rcases lt_trichotomy a b with hab | hab | hab
    · rw [if_neg (lt_asymm hab), if_pos hab] at h2; exact Bool.noConfusion h2
    · subst hab
      rw [if_neg (lt_irrefl a), if_neg (lt_irrefl a)] at h1 h2
      rw [lexLeB_antisymm as bs h1 h2]
    · rw [if_neg (lt_asymm hab), if_pos hab] at h1; exact Bool.noConfusion h1

instance : IsTotal (String × Nat) pageLE where
  total a b := by
    unfold pageLE
    rcases Nat.lt_trichotomy b.2 a.2 with h | h | h
    · exact Or.inl (Or.inl h)
    · rcases lexLeB_total a.1.data b.1.data with hl | hl
      · exact Or.inl (Or.inr ⟨h.symm, hl⟩)
      · exact Or.inr (Or.inr ⟨h, hl⟩)
    · exact Or.inr (Or.inl h)

instance : IsTrans (String × Nat) pageLE where
  trans a b c hab hbc := by
    unfold pageLE at *
    rcases hab with h1 | ⟨h1, l1⟩
    · rcases hbc with h2 | ⟨h2, _⟩
      · exact Or.inl (h2.trans h1)
      · exact Or.inl (h2 ▸ h1)
    · rcases hbc with h2 | ⟨h2, l2⟩
      · exact Or.inl (h1 ▸ h2)
      · exact Or.inr ⟨h1.trans h2, lexLeB_trans _ _ _ l1 l2⟩

instance : IsAntisymm (String × Nat) pageLE where
  antisymm a b hab hba := by
    unfold pageLE at *
    rcases hab with h1 | ⟨h1, l1⟩
    · rcases hba with h2 | ⟨h2, _⟩
      · exact absurd (h1.trans h2) (lt_irrefl _)
      · exact absurd h1 (h2 ▸ lt_irrefl _)
    · rcases hba with h2 | ⟨h2, l2⟩
      · exact absurd h2 (h1 ▸ lt_irrefl _)
      · have hdata := lexLeB_antisymm _ _ l1 l2
        have hs : a.1 = b.1 := congrArg String.mk hdata
        exact Prod.ext hs h1

/-- Structural facts that hold of every URL record produced by `parseURL`
(and preserved by `resolveRel`): they pin down the shape of each component
and make the serialisation `serializeURL` parse back to the same record. -/
structure ParsedProps (r : URLRec) : Prop where
  scheme_ok : schemeOkB r.scheme.data = true
  scheme_lower : r.scheme.data.map Char.toLower = r.scheme.data
  host_ok : hostOkB r.hostname.data = true
  host_lower : r.hostname.data.map Char.toLower = r.hostname.data
  port_digits : r.port.data.all Char.isDigit = true
  path_head : r.pathname.data.head? = some '/'
  path_chars : ∀ c ∈ r.pathname.data, pathEnd c = false
  search_shape : r.search.data = [] ∨ r.search.data.head? = some '?'
  search_chars : ∀ c ∈ r.search.data, (c == '#') = false
  hash_shape : r.hash.data = [] ∨ r.hash.data.head? = some '#'

theorem toNat_ofNat_valid (n : Nat) (h : n.isValidChar) : (Char.ofNat n).toNat = n := by
  rw [Char.ofNat, dif_pos h]; rfl

theorem toLower_toLower (c : Char) : c.toLower.toLower = c.toLower := by
  unfold Char.toLower
  by_cases h : c.toNat ≥ 65 ∧ c.toNat ≤ 90
  · rw [if_pos h]
    have hv : (c.toNat + 32).isValidChar := Or.inl (by omega)
    rw [toNat_ofNat_valid _ hv, if_neg (by omega)]
  · rw [if_neg h, if_neg h]

theorem map_eq_self_mem {f : Char → Char} :
    ∀ {l : List Char}, l.map f = l → ∀ a ∈ l, f a = a := by
  intro l h a ha
  induction l with
  | nil => cases ha
  | cons b t ih =>
    simp only [List.map_cons, List.cons.injEq] at h
    rcases List.mem_cons.mp ha with rfl | ha'
    · exact h.1
    · exact ih h.2 ha'

theorem head_drop_takeWhile (p : Char → Bool) (l : List Char) :
    l.drop (l.takeWhile p).length = [] ∨
    ∃ c t, l.drop (l.takeWhile p).length = c :: t ∧ p c = false := by
  induction l with
  | nil => left; rfl
  | cons a l ih =>
    by_cases h : p a
    · simpa [List.takeWhile_cons, h] using ih
    · right
      refine ⟨a, l, ?_, by simpa using h⟩
      simp [List.takeWhile_cons, h]

theorem takeWhile_head {p : Char → Bool} {l res : List Char} {c : Char} {t : List Char}
    (hl : l.takeWhile p = res) (hres : res = c :: t) : l.head? = some c := by
  subst hres
  cases l with
  | nil => simp at hl
  | cons a l =>
    by_cases h : p a
    · simp only [List.takeWhile_cons, if_pos h, List.cons.injEq] at hl
      simp [hl.1]
    · simp [List.takeWhile_cons, if_neg h] at hl

theorem lower_idem_list (l : List Char) :
    (l.map Char.toLower).map Char.toLower = l.map Char.toLower := by
  rw [List.map_map]
  exact List.map_congr_left fun a _ => toLower_toLower a

theorem parseURL_props {url : String} {r : URLRec} (h : parseURL url = some r) :
    ParsedProps r := by
  simp only [parseURL] at h
  split at h
  case h_2 => exact absurd h (by simp)
  case h_1 rest2 heq =>
    split at h
    case isFalse => exact absurd h (by simp)
    case isTrue hSch =>
      split at h
      case isFalse => exact absurd h (by simp)
      case isTrue hHost =>
        rw [Option.some.injEq] at h
        subst h
        rw [Bool.and_eq_true] at hHost
        set auth := rest2.takeWhile (fun c => !authEnd c) with hauth
        set rest3 := rest2.drop auth.length with hrest3
        set path := rest3.takeWhile (fun c => !pathEnd c) with hpath
        set rest4 := rest3.drop path.length with hrest4
        set srch := rest4.takeWhile (fun c => !(c == '#')) with hsrch
        refine ⟨hSch, lower_idem_list _, hHost.1, lower_idem_list _, hHost.2,
                ?_, ?_, ?_, ?_, ?_⟩
        · -- the path component starts with a slash
          dsimp only
          by_cases hp : path.isEmpty
          · rw [if_pos hp]; rfl
          · rcases head_drop_takeWhile (fun c => !authEnd c) rest2 with h3 | ⟨c, t, h3, hc⟩
            · rw [← hauth, ← hrest3] at h3
              exact absurd (by rw [hpath, h3]; rfl) hp
            · rw [← hauth, ← hrest3] at h3
              have hcE : authEnd c = true := by simpa using hc
              have hpe : pathEnd c = false := by
                by_contra hpe'
                rw [Bool.not_eq_false] at hpe'
                apply hp
                rw [hpath, h3]
                simp [List.takeWhile_cons, hpe']
              have hslash : c = '/' := by
                unfold authEnd at hcE
                unfold pathEnd at hpe
                rw [Bool.or_assoc, hpe, Bool.or_false] at hcE
                exact beq_iff_eq.mp hcE
              subst hslash
              rw [if_neg hp, hpath, h3]
              simp [List.takeWhile_cons, hpe]
        · -- path characters exclude the query and fragment delimiters
          intro c hcmem
          dsimp only at hcmem
          by_cases hp : path.isEmpty
          · rw [if_pos hp] at hcmem
            simp only [List.mem_singleton] at hcmem
            subst hcmem; rfl
          · rw [if_neg hp, hpath] at hcmem
            simpa using List.mem_takeWhile_imp hcmem
        · -- the query is empty or starts with the question mark
          dsimp only
          rcases head_drop_takeWhile (fun c => !pathEnd c) rest3 with h4 | ⟨c, t, h4, hc⟩
          · rw [← hpath, ← hrest4] at h4
            left; rw [hsrch, h4]; rfl
          · rw [← hpath, ← hrest4] at h4
            have hpe : pathEnd c = true := by simpa using hc
            simp only [pathEnd, Bool.or_eq_true, beq_iff_eq] at hpe
            rcases hpe with hq | hh
            · right
              rw [hsrch, h4]
              subst hq
              simp [List.takeWhile_cons]
            · left
              rw [hsrch, h4]
              subst hh
              simp [List.takeWhile_cons]
        · -- query characters exclude the fragment delimiter
          intro c hcm
          dsimp only at hcm
          rw [hsrch] at hcm
          simpa using List.mem_takeWhile_imp hcm
        · -- the fragment is empty or starts with the hash mark
          dsimp only
          rcases head_drop_takeWhile (fun c => !(c == '#')) rest4 with h5 | ⟨c, t, h5, hc⟩
          · rw [← hsrch] at h5
            left; exact h5
          · rw [← hsrch] at h5
            right
            rw [h5]
            have hcc : c = '#' := by simpa using hc
            simp [hcc]

theorem parseURL_none_of_head (s : String)
    (h : ∀ c t, s.data.drop (s.data.takeWhile schemeChar).length = c :: t → c ≠ ':') :
    parseURL s = none := by
  simp only [parseURL]
  split
  case h_1 rest2 heq => exact absurd rfl (h _ _ heq)
  case h_2 => rfl

theorem scheme_scan : ∀ (H P : List Char), ':' ∉ H → (P = [] ∨ ∃ t, P = '/' :: t) →
    ∀ c t, (H ++ P).drop ((H ++ P).takeWhile schemeChar).length = c :: t → c ≠ ':' := by
  intro H
  induction H with
  | nil =>
    intro P _ hP c t hct
    rcases hP with rfl | ⟨t', rfl⟩
    · simp at hct
    · have hsc : schemeChar '/' = false := by decide
      simp only [List.nil_append, List.takeWhile_cons, hsc] at hct
      simp only [Bool.false_eq_true, if_false, List.length_nil, List.drop_zero,
        List.cons.injEq] at hct
      rw [← hct.1]
      decide
  | cons a H' ih =>
    intro P hH hP c t hct
    by_cases hsa : schemeChar a
    · simp only [List.cons_append, List.takeWhile_cons, hsa, if_true, List.length_cons,
        List.drop_succ_cons] at hct
      exact ih P (fun hmem => hH (List.mem_cons_of_mem _ hmem)) hP c t hct
    · rw [Bool.not_eq_true] at hsa
      simp only [List.cons_append, List.takeWhile_cons, hsa, Bool.false_eq_true, if_false,
        List.length_nil, List.drop_zero, List.cons.injEq] at hct
      rw [← hct.1]
      intro hcolon
      exact hH (by rw [hcolon]; exact List.mem_cons_self _ _)

theorem stripSlash_shape {p : List Char} (h : p.head? = some '/') :
    stripSlash p = [] ∨ ∃ t, stripSlash p = '/' :: t := by
  cases p with
  | nil => cases h
  | cons a rest =>
    simp only [List.head?_cons, Option.some.injEq] at h
    subst h
    unfold stripSlash
    split
    · cases rest with
      | nil => left; rfl
      | cons b rbs =>
        right
        exact ⟨(b :: rbs).dropLast, by simp⟩
    · right; exact ⟨rest, rfl⟩

theorem hostOkB_no_colon {l : List Char} (h : hostOkB l = true) : ':' ∉ l := by
  unfold hostOkB at h
  rw [Bool.and_eq_true, List.all_eq_true] at h
  intro hmem
  have := h.2 _ hmem
  simp [hostBad] at this

/-- Claim C3, counterexample: `normalizeURL` succeeds on
`https://example.com/path` with key `example.com/path`, but applying
`normalizeURL` to that key fails (the key has no scheme, so the URL
constructor throws), so `normalize(normalize(u)) == normalize(u)` does not
hold. -/
theorem C3_counterexample :
    normalizeURL "https://example.com/path" = some "example.com/path" ∧
    normalizeURL "example.com/path" = none := by
  constructor
  · decide
  · decide

/-- Claim C3, amended: `normalizeURL` is not idempotent.  Whenever it
succeeds on a URL `u` and produces the key `k`, applying it to `k` fails
with a malformed-URL error — the key consists of host and path only and
has no scheme — rather than succeeding and returning `k` unchanged. -/
theorem C3_normalize_not_idempotent (u k : String) (h : normalizeURL u = some k) :
    normalizeURL k = none := by
  unfold normalizeURL at h
  cases hp : parseURL u with
  | none => rw [hp] at h; cases h
  | some r =>
    rw [hp] at h
    simp only [Option.map_some'] at h
    rw [Option.some.injEq] at h
    subst h
    have props := parseURL_props hp
    unfold normalizeURL
    suffices hnone : parseURL (normKey r) = none by rw [hnone]; rfl
    apply parseURL_none_of_head
    have hsplit : (normKey r).data =
        (stripWWW r.hostname.data).map Char.toLower ++
        (stripSlash r.pathname.data).map Char.toLower := by
      simp [normKey]
    intro c t hct
    rw [hsplit] at hct
    refine scheme_scan _ _ ?_ ?_ c t hct
    · -- no colon in the lowered, stripped host
      intro hmem
      obtain ⟨c', hc'mem, hc'⟩ := List.mem_map.mp hmem
      have hsub : c' ∈ r.hostname.data := by
        unfold stripWWW at hc'mem
        split at hc'mem
        · exact List.drop_subset _ _ hc'mem
        · exact hc'mem
      have hfix := map_eq_self_mem props.host_lower c' hsub
      rw [hfix] at hc'
      subst hc'
      exact hostOkB_no_colon props.host_ok hsub
    · -- the lowered, stripped path is empty or starts with a slash
      rcases stripSlash_shape props.path_head with hs | ⟨t', hs⟩
      · left; rw [hs]; rfl
      · right
        refine ⟨t'.map Char.toLower, ?_⟩
        rw [hs]
        rfl

/-- Witness for C3: the amended theorem applied to the URL
`https://example.com/path`. -/
theorem C3_normalize_not_idempotent_witness :
    normalizeURL "example.com/path" = none :=
  C3_normalize_not_idempotent "https://example.com/path" "example.com/path" (by decide)

theorem normalizeURL_parse {u : String} {r : URLRec} (h : parseURL u = some r) :
    normalizeURL u = some (normKey r) := by
  unfold normalizeURL; rw [h]; rfl

theorem toLower_slash_iff (c : Char) : c.toLower = '/' ↔ c = '/' := by
  constructor
  · intro h
    simp only [Char.toLower] at h
    split at h
    case isTrue hr =>
      have hv : (c.toNat + 32).isValidChar := Or.inl (by omega)
      have h47 := congrArg Char.toNat h
      rw [toNat_ofNat_valid _ hv] at h47
      have : Char.toNat '/' = 47 := rfl
      omega
    case isFalse => exact h
  · intro h; rw [h]; rfl

theorem stripSlash_map_toLower (p : List Char) :
    (stripSlash p).map Char.toLower = stripSlash (p.map Char.toLower) := by
  unfold stripSlash
  by_cases h : p.getLast? = some '/'
  · rw [if_pos h, if_pos (by rw [List.getLast?_map, h]; rfl), List.map_dropLast]
  · rw [if_neg h, if_neg ?_]
    rw [List.getLast?_map]
    intro hc
    cases hgl : p.getLast? with
    | none => rw [hgl] at hc; cases hc
    | some a =>
      rw [hgl] at hc
      simp only [Option.map_some', Option.some.injEq] at hc
      exact h (by rw [hgl, (toLower_slash_iff a).mp hc])

theorem normKey_decomp (r : URLRec) : normKey r =
    String.mk ((stripWWW r.hostname.data).map Char.toLower ++
               stripSlash (r.pathname.data.map Char.toLower)) := by
  unfold normKey
  rw [List.map_append, stripSlash_map_toLower]

theorem stripWWW_cons (x : List Char) : stripWWW ('w' :: 'w' :: 'w' :: '.' :: x) = x := by
  simp [stripWWW, List.isPrefixOf]

theorem stripWWW_of_not {x : List Char} (h : (['w', 'w', 'w', '.'].isPrefixOf x) = false) :
    stripWWW x = x := by
  unfold stripWWW
  simp only [h, Bool.false_eq_true, if_false]

theorem stripSlash_concat (x : List Char) : stripSlash (x ++ ['/']) = x := by
  unfold stripSlash
  rw [if_pos (List.getLast?_concat x), List.dropLast_concat]

theorem stripSlash_no_slash {x : List Char} (h : x.getLast? ≠ some '/') : stripSlash x = x := by
  unfold stripSlash; rw [if_neg h]

/-- Claim C4, counterexample: the two URLs that differ only in their query
strings normalize to the same key `example.com/p`, not to distinct keys:
the key is built from `hostname` and `pathname` only, and the WHATWG
`pathname` excludes the query string and the fragment. -/
theorem C4_counterexample :
    normalizeURL "https://example.com/p?a=1" = some "example.com/p" ∧
    normalizeURL "https://example.com/p?a=2" = some "example.com/p" := by
  exact ⟨by decide, by decide⟩

/-- Claim C4, amended: `normalizeURL` drops query strings and fragments
rather than keeping them in the key — whenever two URLs parse to the same
hostname and the same pathname (so they may differ arbitrarily in scheme,
query or fragment), they normalize to the identical key; in particular the
two example URLs with queries `a=1` and `a=2` both yield
`example.com/p`. -/
theorem C4_query_dropped (u1 u2 : String) (r1 r2 : URLRec)
    (h1 : parseURL u1 = some r1) (h2 : parseURL u2 = some r2)
    (hh : r1.hostname = r2.hostname) (hp : r1.pathname = r2.pathname) :
    normalizeURL u1 = normalizeURL u2 := by
  rw [normalizeURL_parse h1, normalizeURL_parse h2]
  unfold normKey
  rw [hh, hp]

/-- Witness for C4: the amended theorem applied to the two query-string
URLs of the claim. -/
theorem C4_query_dropped_witness :
    normalizeURL "https://example.com/p?a=1" = normalizeURL "https://example.com/p?a=2" :=
  C4_query_dropped _ _
    ⟨"https", "example.com", "", "/p", "?a=1", ""⟩
    ⟨"https", "example.com", "", "/p", "?a=2", ""⟩
    (by decide) (by decide) rfl rfl

/-- Claim C5, counterexample: the claim fails for two URLs that differ
only in one trailing path slash when the shorter path itself ends in a
slash (only one slash is stripped), and for two hosts that differ only in
a leading `www.` label when the shorter host itself starts with `www.`
(only one label is stripped): the normalized keys differ. -/
theorem C5_counterexample :
    (normalizeURL "http://example.com/a//" = some "example.com/a/" ∧
     normalizeURL "http://example.com/a/" = some "example.com/a" ∧
     ("example.com/a/" : String) ≠ "example.com/a") ∧
    (normalizeURL "http://www.www.example.com/" = some "www.example.com" ∧
     normalizeURL "http://www.example.com/" = some "example.com" ∧
     ("www.example.com" : String) ≠ "example.com") := by
  exact ⟨⟨by decide, by decide, by decide⟩, ⟨by decide, by decide, by decide⟩⟩

/-- Claim C5, amended: two syntactically valid absolute URLs that differ
only in scheme, only in letter case (the parser lowercases the host, and
the key lowercases the path), only in a leading `www.` host label where
the shorter host does not itself start with `www.`, or only in one
trailing path slash where the shorter path does not itself end in a slash,
normalize to the identical key; in particular
`normalize("https://WWW.Example.com/Path/") == normalize("http://example.com/path/")`. -/
theorem C5_normalize_equiv :
    (∀ (u1 u2 : String) (r1 r2 : URLRec), parseURL u1 = some r1 → parseURL u2 = some r2 →
      r1.hostname = r2.hostname →
      r1.pathname.data.map Char.toLower = r2.pathname.data.map Char.toLower →
      normalizeURL u1 = normalizeURL u2) ∧
    (∀ (u : String) (r : URLRec), parseURL u = some r →
      r.hostname.data.map Char.toLower = r.hostname.data) ∧
    (∀ (u1 u2 : String) (r1 r2 : URLRec), parseURL u1 = some r1 → parseURL u2 = some r2 →
      r1.hostname.data = 'w' :: 'w' :: 'w' :: '.' :: r2.hostname.data →
      (['w', 'w', 'w', '.'].isPrefixOf r2.hostname.data) = false →
      r1.pathname = r2.pathname →
      normalizeURL u1 = normalizeURL u2) ∧
    (∀ (u1 u2 : String) (r1 r2 : URLRec), parseURL u1 = some r1 → parseURL u2 = some r2 →
      r1.hostname = r2.hostname →
      r1.pathname.data = r2.pathname.data ++ ['/'] →
      r2.pathname.data.getLast? ≠ some '/' →
      normalizeURL u1 = normalizeURL u2) ∧
    normalizeURL "https://WWW.Example.com/Path/" = normalizeURL "http://example.com/path/" := by
  refine ⟨?_, ?_, ?_, ?_, by decide⟩
  · intro u1 u2 r1 r2 h1 h2 hh hlp
    rw [normalizeURL_parse h1, normalizeURL_parse h2, normKey_decomp, normKey_decomp, hh, hlp]
  · intro u r h
    exact (parseURL_props h).host_lower
  · intro u1 u2 r1 r2 h1 h2 hw hnw hp
    rw [normalizeURL_parse h1, normalizeURL_parse h2, normKey_decomp, normKey_decomp,
      hw, hp, stripWWW_cons, stripWWW_of_not hnw]
  · intro u1 u2 r1 r2 h1 h2 hh hp hns
    rw [normalizeURL_parse h1, normalizeURL_parse h2, normKey_decomp, normKey_decomp, hh, hp]
    have hmap : (r2.pathname.data ++ ['/']).map Char.toLower =
        r2.pathname.data.map Char.toLower ++ ['/'] := by
      rw [List.map_append]; rfl
    rw [hmap, stripSlash_concat, stripSlash_no_slash ?_]
    rw [List.getLast?_map]
    intro hc
    cases hgl : r2.pathname.data.getLast? with
    | none => rw [hgl] at hc; cases hc
    | some a =>
      rw [hgl] at hc
      simp only [Option.map_some', Option.some.injEq] at hc
      exact hns (by rw [hgl, (toLower_slash_iff a).mp hc])

/-- Witness for C5: the scheme-and-case conjunct applied to two URLs that
differ in scheme and in path letter case, and the trailing-slash conjunct
applied to a concrete pair. -/
theorem C5_normalize_equiv_witness :
    normalizeURL "https://example.com/Path" = normalizeURL "http://example.com/path" ∧
    normalizeURL "http://example.com/path/" = normalizeURL "http://example.com/path" :=
  ⟨C5_normalize_equiv.1 _ _
      ⟨"https", "example.com", "", "/Path", "", ""⟩
      ⟨"http", "example.com", "", "/path", "", ""⟩
      (by decide) (by decide) rfl (by decide),
   C5_normalize_equiv.2.2.2.1 _ _
      ⟨"http", "example.com", "", "/path/", "", ""⟩
      ⟨"http", "example.com", "", "/path", "", ""⟩
      (by decide) (by decide) rfl (by decide) (by decide)⟩

/-- Claim C9: for every visit table, `sortPages` returns its (key, count)
pairs sorted by count descending with ties broken by ascending key order
(`pageLE`), the result is a permutation of the table's entries, it is
independent of the input's iteration order, and on the table with entries
`a` and `b` both of count 2 the output orders `a` before `b`. -/
theorem C9_sortPages_sorted :
    (∀ ps : List (String × Nat), (sortPages ps).Perm ps) ∧
    (∀ ps : List (String × Nat), List.Sorted pageLE (sortPages ps)) ∧
    (∀ ps ps' : List (String × Nat), ps.Perm ps' → sortPages ps = sortPages ps') ∧
    sortPages [("a", 2), ("b", 2)] = [("a", 2), ("b", 2)] ∧
    sortPages [("b", 2), ("a", 2)] = [("a", 2), ("b", 2)] :=
  ⟨fun ps => List.perm_insertionSort pageLE ps,
   fun ps => List.sorted_insertionSort pageLE ps,
   fun ps ps' h => List.eq_of_perm_of_sorted
     ((List.perm_insertionSort pageLE ps).trans
       (h.trans (List.perm_insertionSort pageLE ps').symm))
     (List.sorted_insertionSort pageLE ps) (List.sorted_insertionSort pageLE ps'),
   by decide, by decide⟩

/-- Witness for C9: the iteration-order independence applied to a concrete
permutation of the two-entry table. -/
theorem C9_sortPages_sorted_witness :
    sortPages [("b", 2), ("a", 2)] = sortPages [("a", 2), ("b", 2)] :=
  C9_sortPages_sorted.2.2.1 [("b", 2), ("a", 2)] [("a", 2), ("b", 2)] (by decide)


theorem lookupCount_bump_self : ∀ (ps : List (String × Nat)) (k : String) (c : Nat),
    lookupCount ps k = some c → lookupCount (bumpCount ps k) k = some (c + 1)
  | [], k, c, h => by cases h
  | (a, b) :: t, k, c, h => by
    by_cases hak : a = k
    · subst hak
      simp only [lookupCount] at h
      rw [if_pos trivial, Option.some.injEq] at h
      subst h
      simp [bumpCount, lookupCount]
    · simp only [lookupCount, if_neg hak] at h
      simp only [bumpCount, if_neg hak, lookupCount, if_neg hak]
      exact lookupCount_bump_self t k c h

theorem lookupCount_bump_ne : ∀ (ps : List (String × Nat)) (k q : String),
    q ≠ k → lookupCount (bumpCount ps k) q = lookupCount ps q
  | [], _, _, _ => rfl
  | (a, b) :: t, k, q, h => by
    by_cases hak : a = k
    · subst hak
      simp only [bumpCount, if_pos rfl, lookupCount]
      rw [if_neg (Ne.symm h), if_neg (Ne.symm h)]
    · simp only [bumpCount, if_neg hak, lookupCount]
      by_cases haq : a = q
      · rw [if_pos haq, if_pos haq]
      · rw [if_neg haq, if_neg haq]
        exact lookupCount_bump_ne t k q h

theorem lookupCount_setOne_self : ∀ (ps : List (String × Nat)) (k : String),
    lookupCount (setCountOne ps k) k = some 1
  | [], k => by simp [setCountOne, lookupCount]
  | (a, b) :: t, k => by
    by_cases hak : a = k
    · subst hak
      simp [setCountOne, lookupCount]
    · simp only [setCountOne, if_neg hak, lookupCount, if_neg hak]
      exact lookupCount_setOne_self t k

theorem lookupCount_setOne_ne : ∀ (ps : List (String × Nat)) (k q : String),
    q ≠ k → lookupCount (setCountOne ps k) q = lookupCount ps q
  | [], k, q, h => by
    simp only [setCountOne, lookupCount]
    rw [if_neg (Ne.symm h)]
  | (a, b) :: t, k, q, h => by
    by_cases hak : a = k
    · subst hak
      simp only [setCountOne, if_pos rfl, lookupCount]
      rw [if_neg (Ne.symm h), if_neg (Ne.symm h)]
    · simp only [setCountOne, if_neg hak, lookupCount]
      by_cases haq : a = q
      · rw [if_pos haq, if_pos haq]
      · rw [if_neg haq, if_neg haq]
        exact lookupCount_setOne_ne t k q h

theorem keysOf_bump : ∀ (ps : List (String × Nat)) (k : String),
    keysOf (bumpCount ps k) = keysOf ps
  | [], _ => rfl
  | (a, b) :: t, k => by
    by_cases hak : a = k
    · subst hak; simp [bumpCount, keysOf]
    · simp only [bumpCount, if_neg hak, keysOf, List.map_cons]
      have hrec := keysOf_bump t k
      simp only [keysOf] at hrec
      rw [hrec]

theorem keysOf_setOne_sub : ∀ (ps : List (String × Nat)) (k q : String),
    q ∈ keysOf (setCountOne ps k) → q ∈ keysOf ps ∨ q = k
  | [], k, q, h => by
    simp [setCountOne, keysOf] at h
    exact Or.inr h
  | (a, b) :: t, k, q, h => by
    by_cases hak : a = k
    · subst hak
      have h' : q = a ∨ q ∈ keysOf t := by
        simpa [setCountOne, keysOf] using h
      rcases h' with h1 | h1
      · exact Or.inr h1
      · exact Or.inl (List.mem_cons_of_mem _ h1)
    · have h' : q = a ∨ q ∈ keysOf (setCountOne t k) := by
        simpa [setCountOne, hak, keysOf] using h
      rcases h' with h1 | h1
      · exact Or.inl (by rw [h1]; exact List.mem_cons_self _ _)
      · rcases keysOf_setOne_sub t k q h1 with h2 | h2
        · exact Or.inl (List.mem_cons_of_mem _ h2)
        · exact Or.inr h2

theorem crawlStep_refl (host : String) (s : CrawlState) : CrawlStep host s s :=
  ⟨fun _ c h => ⟨c, h, le_refl c⟩, id, fun _ hk => Or.inl hk, id⟩

theorem crawlStep_trans {host : String} {s t u : CrawlState}
    (h1 : CrawlStep host s t) (h2 : CrawlStep host t u) : CrawlStep host s u := by
  obtain ⟨m1, p1, k1, f1⟩ := h1
  obtain ⟨m2, p2, k2, f2⟩ := h2
  refine ⟨?_, fun hp => p2 (p1 hp), ?_, fun hf => f2 (f1 hf)⟩
  · intro k c h
    obtain ⟨c', hc', hle⟩ := m1 k c h
    obtain ⟨c'', hc'', hle'⟩ := m2 k c' hc'
    exact ⟨c'', hc'', hle.trans hle'⟩
  · intro k hk
    rcases k2 k hk with h' | h'
    · exact k1 k h'
    · exact Or.inr h'

theorem crawlStep_bump (host : String) (s : CrawlState) (k : String) (c : Nat)
    (hl : lookupCount s.pages k = some c) (hc : 0 < c) :
    CrawlStep host s { s with pages := bumpCount s.pages k } := by
  refine ⟨?_, ?_, ?_, ?_⟩
  · intro q cq hq
    dsimp only
    by_cases hqk : q = k
    · subst hqk
      exact ⟨cq + 1, lookupCount_bump_self _ _ _ hq, Nat.le_succ cq⟩
    · rw [lookupCount_bump_ne _ _ _ hqk]
      exact ⟨cq, hq, le_refl _⟩
  · intro hp q cq hq
    dsimp only at hq
    by_cases hqk : q = k
    · subst hqk
      rw [lookupCount_bump_self _ _ _ hl, Option.some.injEq] at hq
      omega
    · rw [lookupCount_bump_ne _ _ _ hqk] at hq
      exact hp q cq hq
  · intro q hq
    dsimp only at hq
    rw [keysOf_bump] at hq
    exact Or.inl hq
  · intro hf q
    have hcf : countFetched { s with pages := bumpCount s.pages k } q = countFetched s q := rfl
    rw [hcf, hf q]
    dsimp only
    by_cases hqk : q = k
    · subst hqk
      have h1 : getCount s.pages q = c := by rw [getCount, hl]; rfl
      have h2 : getCount (bumpCount s.pages q) q = c + 1 := by
        rw [getCount, lookupCount_bump_self _ _ _ hl]; rfl
      rw [h2, h1, if_neg (by omega), if_neg (by omega)]
    · have h3 : getCount (bumpCount s.pages k) q = getCount s.pages q := by
        rw [getCount, getCount, lookupCount_bump_ne _ _ _ hqk]
      rw [h3]

theorem crawlStep_setOne (host : String) (s : CrawlState) (cur : String) (cObj : URLRec)
    (hcur : parseURL cur = some cObj) (hhost : cObj.hostname = host)
    (hz : getCount s.pages (normKey cObj) = 0) :
    CrawlStep host s { pages := setCountOne s.pages (normKey cObj),
                       fetched := s.fetched ++ [cur] } := by
  have hnorm : normalizeURL cur = some (normKey cObj) := normalizeURL_parse hcur
  refine ⟨?_, ?_, ?_, ?_⟩
  · intro q cq hq
    dsimp only
    by_cases hqk : q = normKey cObj
    · subst hqk
      refine ⟨1, lookupCount_setOne_self _ _, ?_⟩
      rw [getCount, hq] at hz
      simp only [Option.getD_some] at hz
      omega
    · rw [lookupCount_setOne_ne _ _ _ hqk]
      exact ⟨cq, hq, le_refl _⟩
  · intro hp q cq hq
    dsimp only at hq
    by_cases hqk : q = normKey cObj
    · subst hqk
      rw [lookupCount_setOne_self, Option.some.injEq] at hq
      omega
    · rw [lookupCount_setOne_ne _ _ _ hqk] at hq
      exact hp q cq hq
  · intro q hq
    dsimp only at hq
    rcases keysOf_setOne_sub _ _ _ hq with h' | h'
    · exact Or.inl h'
    · exact Or.inr ⟨cObj, hhost, h'.symm⟩
  · intro hf q
    dsimp only
    by_cases hqk : q = normKey cObj
    · have hcf : (List.filter (fun u => normalizeURL u == some q) (s.fetched ++ [cur])).length =
          countFetched s q + 1 := by
        rw [List.filter_append]
        have htrue : (normalizeURL cur == some q) = true := by
          rw [hnorm, hqk]; exact beq_self_eq_true _
        simp [htrue, countFetched]
      have h1 : getCount (setCountOne s.pages (normKey cObj)) q = 1 := by
        rw [getCount, hqk, lookupCount_setOne_self]; rfl
      show (List.filter (fun u => normalizeURL u == some q) (s.fetched ++ [cur])).length = _
      rw [hcf, hf q, h1, hqk, hz]
      simp
    · have hne : (normalizeURL cur == some q) = false := by
        rw [hnorm, beq_eq_false_iff_ne]
        intro hcontra
        exact hqk (Option.some.inj hcontra).symm
      have hcf : (List.filter (fun u => normalizeURL u == some q) (s.fetched ++ [cur])).length =
          countFetched s q := by
        rw [List.filter_append]
        simp [hne, countFetched]
      have h1 : getCount (setCountOne s.pages (normKey cObj)) q = getCount s.pages q := by
        rw [getCount, getCount, lookupCount_setOne_ne _ _ _ hqk]
      show (List.filter (fun u => normalizeURL u == some q) (s.fetched ++ [cur])).length = _
      rw [hcf, hf q, h1]

theorem crawlList_step (host : String)
    (f : String → CrawlState → Option (Except String CrawlState))
    (hf : ∀ u s t, f u s = some (.ok t) → CrawlStep host s t) :
    ∀ (ls : List String) (s t : CrawlState),
      crawlList f ls s = some (.ok t) → CrawlStep host s t := by
  intro ls
  induction ls with
  | nil =>
    intro s t h
    simp only [crawlList] at h
    rw [Option.some.injEq, Except.ok.injEq] at h
    subst h
    exact crawlStep_refl host s
  | cons u us ih =>
    intro s t h
    simp only [crawlList] at h
    cases hfu : f u s with
    | none =>
      rw [hfu] at h
      exact Option.noConfusion h
    | some r =>
      cases r with
      | error e =>
        rw [hfu] at h
        exact Except.noConfusion (Option.some.inj h)
      | ok s' =>
        rw [hfu] at h
        exact crawlStep_trans (hf u s s' hfu) (ih s' t h)

theorem crawlPage_step (web : Web) (base : String) (bObj : URLRec)
    (hb : parseURL base = some bObj) :
    ∀ (fuel : Nat) (cur : String) (s t : CrawlState),
      crawlPage web base fuel cur s = some (.ok t) → CrawlStep bObj.hostname s t := by
  intro fuel
  induction fuel with
  | zero => intro cur s t h; exact Option.noConfusion h
  | succ n ih =>
    intro cur s t h
    simp only [crawlPage] at h
    cases hc : parseURL cur with
    | none =>
      rw [hc] at h
      exact Except.noConfusion (Option.some.inj h)
    | some cObj =>
      simp only [hc, hb] at h
      by_cases hhost : cObj.hostname ≠ bObj.hostname
      · rw [if_pos hhost] at h
        rw [Option.some.injEq, Except.ok.injEq] at h
        subst h
        exact crawlStep_refl _ _
      · rw [if_neg hhost] at h
        by_cases hvis : (lookupCount s.pages (normKey cObj)).getD 0 > 0
        · rw [if_pos hvis] at h
          rw [Option.some.injEq, Except.ok.injEq] at h
          subst h
          cases hl : lookupCount s.pages (normKey cObj) with
          | none => rw [hl] at hvis; simp at hvis
          | some c =>
            refine crawlStep_bump _ _ _ c hl ?_
            rw [hl] at hvis
            simpa using hvis
        · rw [if_neg hvis] at h
          have hz : getCount s.pages (normKey cObj) = 0 := by
            rw [getCount]; omega
          cases hwf : webFetch web cur with
          | none =>
            simp only [hwf] at h
            rw [Option.some.injEq, Except.ok.injEq] at h
            subst h
            exact crawlStep_setOne _ _ _ _ hc (not_not.mp hhost) hz
          | some links =>
            simp only [hwf] at h
            have hstep1 := crawlStep_setOne bObj.hostname s cur cObj hc (not_not.mp hhost) hz
            have hstep2 := crawlList_step bObj.hostname _
              (fun u s' t' h' => ih u s' t' h') links _ t h
            exact crawlStep_trans hstep1 hstep2

/-- The normalized keys of all links stored in a web fixture. -/
def webKeys (web : Web) : Finset String :=
  ((allLinks web).filterMap normalizeURL).toFinset

/-- Termination measure: how many of the web's keys are still unvisited. -/
def crawlMeasure (web : Web) (st : CrawlState) : Nat :=
  ((webKeys web).filter fun k => getCount st.pages k = 0).card

theorem crawlMeasure_mono {web : Web} {s t : CrawlState} (m : Mono s t) :
    crawlMeasure web t ≤ crawlMeasure web s := by
  apply Finset.card_le_card
  apply Finset.monotone_filter_right
  intro k hk
  by_contra hs
  cases hl : lookupCount s.pages k with
  | none => exact hs (by rw [getCount, hl]; rfl)
  | some c =>
    obtain ⟨c', hc', hle⟩ := m k c hl
    have h1 : getCount s.pages k = c := by rw [getCount, hl]; rfl
    have h2 : getCount t.pages k = c' := by rw [getCount, hc']; rfl
    rw [h1] at hs
    rw [h2] at hk
    omega

theorem crawlMeasure_setOne_lt {web : Web} {st : CrawlState} {k : String}
    {f : List String} (hk : k ∈ webKeys web) (hz : getCount st.pages k = 0) :
    crawlMeasure web ⟨setCountOne st.pages k, f⟩ < crawlMeasure web st := by
  apply Finset.card_lt_card
  rw [Finset.ssubset_def]
  constructor
  · intro q hq
    rw [Finset.mem_filter] at hq ⊢
    obtain ⟨hq1, hq2⟩ := hq
    refine ⟨hq1, ?_⟩
    by_cases hqk : q = k
    · subst hqk
      have h1 : getCount (setCountOne st.pages q) q = 1 := by
        rw [getCount, lookupCount_setOne_self]; rfl
      rw [h1] at hq2
      exact absurd hq2 one_ne_zero
    · rw [getCount, lookupCount_setOne_ne _ _ _ hqk] at hq2
      exact hq2
  · intro hsub
    have hkmem : k ∈ (webKeys web).filter (fun q => getCount st.pages q = 0) :=
      Finset.mem_filter.mpr ⟨hk, hz⟩
    have hmem2 := hsub hkmem
    rw [Finset.mem_filter] at hmem2
    obtain ⟨_, h2⟩ := hmem2
    have h1 : getCount (setCountOne st.pages k) k = 1 := by
      rw [getCount, lookupCount_setOne_self]; rfl
    rw [h1] at h2
    exact absurd h2 one_ne_zero

theorem webFetch_links {web : Web} {u : String} {ls : List String}
    (h : webFetch web u = some ls) : ∀ l ∈ ls, l ∈ allLinks web := by
  induction web with
  | nil => cases h
  | cons p t ih =>
    obtain ⟨pu, pr⟩ := p
    simp only [webFetch] at h
    by_cases hpu : pu = u
    · rw [if_pos hpu] at h
      intro l hl
      simp only [allLinks, h, Option.getD_some]
      exact List.mem_append_left _ hl
    · rw [if_neg hpu] at h
      intro l hl
      simp only [allLinks]
      exact List.mem_append_right _ (ih h l hl)

theorem crawlList_fuel (web : Web) (base : String) (n : Nat)
    (hf : ∀ cur st, cur ∈ allLinks web → crawlMeasure web st + 1 ≤ n →
      crawlPage web base n cur st ≠ none)
    (hstep : ∀ cur st t, crawlPage web base n cur st = some (.ok t) → Mono st t) :
    ∀ (ls : List String) (st : CrawlState), (∀ l ∈ ls, l ∈ allLinks web) →
      crawlMeasure web st + 1 ≤ n →
      crawlList (crawlPage web base n) ls st ≠ none := by
  intro ls
  induction ls with
  | nil => intro st _ _ h; simp [crawlList] at h
  | cons u us ih =>
    intro st hmem hn h
    simp only [crawlList] at h
    cases hfu : crawlPage web base n u st with
    | none => exact hf u st (hmem u (List.mem_cons_self _ _)) hn hfu
    | some r =>
      cases r with
      | error e =>
        rw [hfu] at h
        exact Option.noConfusion h
      | ok s' =>
        rw [hfu] at h
        have hle := @crawlMeasure_mono web _ _ (hstep u st s' hfu)
        exact ih s' (fun l hl => hmem l (List.mem_cons_of_mem _ hl)) (by omega) h

theorem crawlPage_fuel (web : Web) (base : String) :
    ∀ (n : Nat) (cur : String) (st : CrawlState), cur ∈ allLinks web →
      crawlMeasure web st + 1 ≤ n → crawlPage web base n cur st ≠ none := by
  intro n
  induction n with
  | zero => intro cur st _ hn; exact absurd hn (by omega)
  | succ m ih =>
    intro cur st hcur hn h
    simp only [crawlPage] at h
    cases hc : parseURL cur with
    | none => rw [hc] at h; exact Option.noConfusion h
    | some cObj =>
      cases hb : parseURL base with
      | none =>
        simp only [hc, hb] at h
        exact Option.noConfusion h
      | some bObj =>
        simp only [hc, hb] at h
        by_cases hhost : cObj.hostname ≠ bObj.hostname
        · rw [if_pos hhost] at h; exact Option.noConfusion h
        · rw [if_neg hhost] at h
          by_cases hvis : (lookupCount st.pages (normKey cObj)).getD 0 > 0
          · rw [if_pos hvis] at h; exact Option.noConfusion h
          · rw [if_neg hvis] at h
            cases hwf : webFetch web cur with
            | none => simp only [hwf] at h; exact Option.noConfusion h
            | some links =>
              simp only [hwf] at h
              have hkey : normKey cObj ∈ webKeys web :=
                List.mem_toFinset.mpr
                  (List.mem_filterMap.mpr ⟨cur, hcur, normalizeURL_parse hc⟩)
              have hz : getCount st.pages (normKey cObj) = 0 := by rw [getCount]; omega
              have hlt := @crawlMeasure_setOne_lt web _ _
                (st.fetched ++ [cur]) hkey hz
              refine crawlList_fuel web base m
                (fun cur' st' hcur' hn' => ih cur' st' hcur' hn')
                (fun cur' st' t' h' => (crawlPage_step web base bObj hb m cur' st' t' h').1)
                links _ (webFetch_links hwf) ?_ h
              omega

/-- Claim C1, counterexample: `crawlPage` is called with
`http://www.example.com/`, whose normalized key `example.com` is already
in the visit table with count 1; but its raw host `www.example.com`
differs from the seed host `example.com`, so the offsite check fires first
and the call returns with the table unchanged — the count is not
incremented to 2 as the claim requires. -/
theorem C1_counterexample :
    normalizeURL "http://www.example.com/" = some "example.com" ∧
    lookupCount [("example.com", 1)] "example.com" = some 1 ∧
    crawlPage [] "http://example.com" 5 "http://www.example.com/"
      ⟨[("example.com", 1)], []⟩ = some (.ok ⟨[("example.com", 1)], []⟩) ∧
    ¬ crawlPage [] "http://example.com" 5 "http://www.example.com/"
      ⟨[("example.com", 1)], []⟩ = some (.ok ⟨[("example.com", 2)], []⟩) := by
  refine ⟨by decide, by decide, by decide, by decide⟩

/-- Claim C1, amended: in a crawl run started from the seed, every visited
key's fetch is attempted exactly once (`FetchBal`); in the two-pages-link-C
fixture C's final count is 2 while C is fetched once; and in general, when
`crawlPage` is called with a `currentURL` whose raw host equals the seed's
host and whose normalized key is already in the visit table with a
positive count, it increments that count by exactly 1 and returns without
fetching and without recursing (an already-present key reached through a
host that differs from the seed's raw host — e.g. a `www.` variant — is
instead skipped by the offsite check with no increment). -/
theorem C1_already_visited :
    (∀ (web : Web) (base cur : String) (fuel : Nat) (st : CrawlState)
      (cObj bObj : URLRec) (c : Nat),
      parseURL cur = some cObj → parseURL base = some bObj →
      cObj.hostname = bObj.hostname →
      lookupCount st.pages (normKey cObj) = some c → 0 < c →
      crawlPage web base (fuel + 1) cur st =
        some (.ok ⟨bumpCount st.pages (normKey cObj), st.fetched⟩) ∧
      lookupCount (bumpCount st.pages (normKey cObj)) (normKey cObj) = some (c + 1)) ∧
    (∀ (web : Web) (base : String) (bObj : URLRec) (fuel : Nat) (st' : CrawlState),
      parseURL base = some bObj →
      crawlPage web base fuel base ⟨[], []⟩ = some (.ok st') →
      ∀ k, countFetched st' k = if getCount st'.pages k = 0 then 0 else 1) ∧
    crawlPage
      [("http://site.com", some ["http://site.com/a", "http://site.com/b"]),
       ("http://site.com/a", some ["http://site.com/c"]),
       ("http://site.com/b", some ["http://site.com/c"]),
       ("http://site.com/c", some [])]
      "http://site.com" 10 "http://site.com" ⟨[], []⟩ =
      some (.ok ⟨[("site.com", 1), ("site.com/a", 1), ("site.com/c", 2), ("site.com/b", 1)],
        ["http://site.com", "http://site.com/a", "http://site.com/c", "http://site.com/b"]⟩) := by
  refine ⟨?_, ?_, by decide⟩
  · intro web base cur fuel st cObj bObj c hc hb heq hl hcpos
    constructor
    · simp only [crawlPage]
      simp only [hc, hb]
      rw [if_neg (not_not.mpr heq), if_pos (by rw [hl]; simpa using hcpos)]
    · exact lookupCount_bump_self _ _ _ hl
  · intro web base bObj fuel st' hb hok
    have hbal : FetchBal ⟨[], []⟩ := fun k => rfl
    exact (crawlPage_step web base bObj hb fuel base ⟨[], []⟩ st' hok).2.2.2 hbal

/-- Witness for C1: the already-visited increment applied at a concrete
call whose current URL's host matches the seed's host, and the fetch-once
invariant read off a one-page run. -/
theorem C1_already_visited_witness :
    (crawlPage [] "http://site.com" 3 "http://site.com/x"
      ⟨[("site.com/x", 1)], []⟩ = some (.ok ⟨[("site.com/x", 2)], []⟩) ∧
      lookupCount (bumpCount [("site.com/x", 1)] "site.com/x") "site.com/x" = some 2) ∧
    (∀ k, countFetched ⟨[("site.com", 1)], ["http://site.com"]⟩ k =
      if getCount [("site.com", 1)] k = 0 then 0 else 1) := by
  constructor
  · have := C1_already_visited.1 [] "http://site.com" "http://site.com/x" 2
      ⟨[("site.com/x", 1)], []⟩
      ⟨"http", "site.com", "", "/x", "", ""⟩ ⟨"http", "site.com", "", "/", "", ""⟩ 1
      (by decide) (by decide) rfl (by decide) (by decide)
    exact this
  · exact C1_already_visited.2.1 [] "http://site.com"
      ⟨"http", "site.com", "", "/", "", ""⟩ 2 ⟨[("site.com", 1)], ["http://site.com"]⟩
      (by decide) (by decide)

/-- Claim C2: crawling terminates on every finite link graph — enough fuel
always exists — and on the two-page cycle fixture (A links to B, B links
back to A) the run completes with A's count 2 (discovered as the seed and
once from B) and B's count 1, B having been fetched once after A. -/
theorem C2_terminates :
    (∀ (web : Web) (base cur : String) (st : CrawlState),
      ∃ fuel, crawlPage web base fuel cur st ≠ none) ∧
    crawlPage [("http://site.com/a", some ["http://site.com/b"]),
               ("http://site.com/b", some ["http://site.com/a"])]
      "http://site.com/a" 5 "http://site.com/a" ⟨[], []⟩ =
    some (.ok ⟨[("site.com/a", 2), ("site.com/b", 1)],
               ["http://site.com/a", "http://site.com/b"]⟩) := by
  refine ⟨?_, by decide⟩
  intro web base cur st
  obtain ⟨M, hM⟩ : ∃ M, crawlMeasure web st + 1 = M := ⟨_, rfl⟩
  refine ⟨M + 1, ?_⟩
  intro h
  simp only [crawlPage] at h
  cases hc : parseURL cur with
  | none => rw [hc] at h; exact Option.noConfusion h
  | some cObj =>
    cases hb : parseURL base with
    | none =>
      simp only [hc, hb] at h
      exact Option.noConfusion h
    | some bObj =>
      simp only [hc, hb] at h
      by_cases hhost : cObj.hostname ≠ bObj.hostname
      · rw [if_pos hhost] at h; exact Option.noConfusion h
      · rw [if_neg hhost] at h
        by_cases hvis : (lookupCount st.pages (normKey cObj)).getD 0 > 0
        · rw [if_pos hvis] at h; exact Option.noConfusion h
        · rw [if_neg hvis] at h
          cases hwf : webFetch web cur with
          | none => simp only [hwf] at h; exact Option.noConfusion h
          | some links =>
            simp only [hwf] at h
            have hz : getCount st.pages (normKey cObj) = 0 := by rw [getCount]; omega
            have hstep1 := crawlStep_setOne bObj.hostname st cur cObj hc
              (not_not.mp hhost) hz
            have hmle := @crawlMeasure_mono web _ _ hstep1.1
            refine crawlList_fuel web base M
              (fun cur' st' hcur' hn' =>
                crawlPage_fuel web base M cur' st' hcur' hn')
              (fun cur' st' t' h' =>
                (crawlPage_step web base bObj hb _ cur' st' t' h').1)
              links _ (webFetch_links hwf) ?_ h
            omega

/-- Claim C6: when the raw host of `currentURL` differs from the raw host
of the seed URL, `crawlPage` returns immediately with the state (visit
table and fetch log) unchanged; consequently every key of the final visit
table of a run started from the seed originates from a URL whose host
equals the seed's host. -/
theorem C6_offsite_skip :
    (∀ (web : Web) (base cur : String) (fuel : Nat) (st : CrawlState)
      (cObj bObj : URLRec),
      parseURL cur = some cObj → parseURL base = some bObj →
      cObj.hostname ≠ bObj.hostname →
      crawlPage web base (fuel + 1) cur st = some (.ok st)) ∧
    (∀ (web : Web) (base : String) (bObj : URLRec) (fuel : Nat) (st' : CrawlState),
      parseURL base = some bObj →
      crawlPage web base fuel base ⟨[], []⟩ = some (.ok st') →
      ∀ k, k ∈ keysOf st'.pages → FromHost bObj.hostname k) := by
  constructor
  · intro web base cur fuel st cObj bObj hc hb hne
    simp only [crawlPage]
    simp only [hc, hb]
    rw [if_pos hne]
  · intro web base bObj fuel st' hb hok k hk
    rcases (crawlPage_step web base bObj hb fuel base ⟨[], []⟩ st' hok).2.2.1 k hk with h | h
    · cases h
    · exact h

/-- Witness for C6: the offsite skip applied at a concrete offsite call,
and the origin invariant read off a one-page run. -/
theorem C6_offsite_skip_witness :
    crawlPage [] "http://example.com" 3 "http://other.com/x"
      ⟨[("k", 5)], ["f"]⟩ = some (.ok ⟨[("k", 5)], ["f"]⟩) ∧
    (∀ k, k ∈ keysOf [("site.com", 1)] → FromHost "site.com" k) := by
  constructor
  · exact C6_offsite_skip.1 [] "http://example.com" "http://other.com/x" 2
      ⟨[("k", 5)], ["f"]⟩
      ⟨"http", "other.com", "", "/x", "", ""⟩ ⟨"http", "example.com", "", "/", "", ""⟩
      (by decide) (by decide) (by decide)
  · have := C6_offsite_skip.2 [] "http://site.com"
      ⟨"http", "site.com", "", "/", "", ""⟩ 2 ⟨[("site.com", 1)], ["http://site.com"]⟩
      (by decide) (by decide)
    exact this

/-- Claim C7: when the fetch of a new page fails, `crawlPage` records the
page's key with count 1, logs the fetch attempt, returns the table as-is
and does not explore any outbound links of that page; and in the fixture
where the failing page has a sibling, the sibling branch still completes
and is counted. -/
theorem C7_fetch_failure :
    (∀ (web : Web) (base cur : String) (fuel : Nat) (st : CrawlState)
      (cObj bObj : URLRec),
      parseURL cur = some cObj → parseURL base = some bObj →
      cObj.hostname = bObj.hostname →
      getCount st.pages (normKey cObj) = 0 →
      webFetch web cur = none →
      crawlPage web base (fuel + 1) cur st =
        some (.ok ⟨setCountOne st.pages (normKey cObj), st.fetched ++ [cur]⟩) ∧
      lookupCount (setCountOne st.pages (normKey cObj)) (normKey cObj) = some 1) ∧
    crawlPage
      [("http://site.com", some ["http://site.com/bad", "http://site.com/good"]),
       ("http://site.com/good", some [])]
      "http://site.com" 10 "http://site.com" ⟨[], []⟩ =
      some (.ok ⟨[("site.com", 1), ("site.com/bad", 1), ("site.com/good", 1)],
        ["http://site.com", "http://site.com/bad", "http://site.com/good"]⟩) := by
  refine ⟨?_, by decide⟩
  intro web base cur fuel st cObj bObj hc hb heq hz hwf
  constructor
  · simp only [crawlPage]
    simp only [hc, hb]
    rw [if_neg (not_not.mpr heq), if_neg (by rw [getCount] at hz; omega)]
    simp only [hwf]
  · exact lookupCount_setOne_self _ _

/-- Witness for C7: the failure branch applied at a concrete call whose
fetch fails (the URL is absent from the web fixture). -/
theorem C7_fetch_failure_witness :
    crawlPage [] "http://site.com" 4 "http://site.com/dead" ⟨[], []⟩ =
      some (.ok ⟨[("site.com/dead", 1)], ["http://site.com/dead"]⟩) ∧
    lookupCount (setCountOne [] "site.com/dead") "site.com/dead" = some 1 := by
  have := C7_fetch_failure.1 [] "http://site.com" "http://site.com/dead" 3 ⟨[], []⟩
    ⟨"http", "site.com", "", "/dead", "", ""⟩ ⟨"http", "site.com", "", "/", "", ""⟩
    (by decide) (by decide) rfl (by decide) (by decide)
  exact this

theorem crawlPage_ok_base {web : Web} {base : String} {fuel : Nat} {cur : String}
    {st st' : CrawlState}
    (h : crawlPage web base fuel cur st = some (.ok st')) :
    ∃ bObj, parseURL base = some bObj := by
  cases fuel with
  | zero => exact Option.noConfusion h
  | succ n =>
    simp only [crawlPage] at h
    cases hc : parseURL cur with
    | none =>
      rw [hc] at h
      exact Except.noConfusion (Option.some.inj h)
    | some cObj =>
      cases hbp : parseURL base with
      | none =>
        simp only [hc, hbp] at h
        exact Except.noConfusion (Option.some.inj h)
      | some bObj => exact ⟨bObj, rfl⟩

/-- Claim C10: the visit table only ever grows — for every call of
`crawlPage` that returns normally on a table whose counts are positive,
every key of the input table is still present with a count at least its
input count, and every count of the returned table is positive. -/
theorem C10_table_monotone (web : Web) (base : String) (fuel : Nat) (cur : String)
    (st st' : CrawlState)
    (hok : crawlPage web base fuel cur st = some (.ok st'))
    (hpos : ∀ k c, lookupCount st.pages k = some c → 1 ≤ c) :
    (∀ k c, lookupCount st.pages k = some c →
      ∃ c', lookupCount st'.pages k = some c' ∧ c ≤ c') ∧
    (∀ k c, lookupCount st'.pages k = some c → 1 ≤ c) := by
  obtain ⟨bObj, hb⟩ := crawlPage_ok_base hok
  obtain ⟨m, p, _, _⟩ := crawlPage_step web base bObj hb fuel cur st st' hok
  exact ⟨m, p hpos⟩

/-- Witness for C10: the monotonicity read off a concrete one-page run
started from the empty table. -/
theorem C10_table_monotone_witness :
    (∀ k c, lookupCount ([] : List (String × Nat)) k = some c →
      ∃ c', lookupCount [("a.com", 1)] k = some c' ∧ c ≤ c') ∧
    (∀ k c, lookupCount [("a.com", 1)] k = some c → 1 ≤ c) :=
  C10_table_monotone [] "http://a.com" 2 "http://a.com" ⟨[], []⟩
    ⟨[("a.com", 1)], ["http://a.com"]⟩ (by decide)
    (fun k c h => Option.noConfusion h)

theorem takeWhile_all_eq {p : Char → Bool} {l : List Char} (h : ∀ c ∈ l, p c = true) :
    l.takeWhile p = l :=
  List.takeWhile_eq_self_iff.mpr h

theorem takeWhile_append_stop {p : Char → Bool} {l m : List Char} {c : Char}
    (hl : ∀ x ∈ l, p x = true) (hc : p c = false) :
    (l ++ c :: m).takeWhile p = l := by
  induction l with
  | nil => simp [List.takeWhile_cons, hc]
  | cons a t ih =>
    have ha : p a = true := hl a (List.mem_cons_self _ _)
    simp [List.takeWhile_cons, ha, ih fun x hx => hl x (List.mem_cons_of_mem _ hx)]

theorem afterLastAt_id {l : List Char} (h : ∀ c ∈ l, (c == '@') = false) :
    afterLastAt l = l := by
  unfold afterLastAt
  rw [takeWhile_all_eq fun c hc => by
    rw [h c (List.mem_reverse.mp hc)]; rfl]
  exact List.reverse_reverse l

theorem splitPort_no_port {l : List Char} (h : ∀ c ∈ l, (c == ':') = false) :
    splitPort l = (l, []) := by
  simp only [splitPort]
  rw [takeWhile_all_eq fun c hc => by rw [h c hc]; rfl]
  simp

theorem splitPort_with_port {h p : List Char} (hh : ∀ c ∈ h, (c == ':') = false) :
    splitPort (h ++ ':' :: p) = (h, p) := by
  simp only [splitPort]
  rw [takeWhile_append_stop (fun c hc => by rw [hh c hc]; rfl) (by simp),
    List.drop_left]
  rfl

theorem schemeOkB_parts {l : List Char} (h : schemeOkB l = true) :
    l ≠ [] ∧ ∀ c ∈ l, schemeChar c = true := by
  cases l with
  | nil => cases h
  | cons c t =>
    simp only [schemeOkB, Bool.and_eq_true] at h
    exact ⟨by simp, fun x hx => List.all_eq_true.mp h.2 x hx⟩

theorem hostOkB_mem {l : List Char} (h : hostOkB l = true) :
    ∀ c ∈ l, hostBad c = false := by
  unfold hostOkB at h
  rw [Bool.and_eq_true, List.all_eq_true] at h
  intro c hc
  have := h.2 c hc
  simpa using this

theorem hostBad_false_parts {c : Char} (h : hostBad c = false) :
    (c == ':') = false ∧ authEnd c = false ∧ (c == '@') = false := by
  unfold hostBad at h
  simp only [Bool.or_eq_false_iff] at h
  obtain ⟨⟨⟨⟨⟨⟨h1, h2⟩, h3⟩, h4⟩, h5⟩, h6⟩, h7⟩ := h
  refine ⟨h1, ?_, h5⟩
  unfold authEnd
  rw [h2, h3, h4]
  rfl

theorem isDigit_ne {c s : Char} (h : c.isDigit = true) (hs : s.isDigit = false) :
    (c == s) = false :=
  beq_eq_false_iff_ne.mpr fun hc => by
    rw [hc] at h
    rw [h] at hs
    cases hs

theorem isDigit_authEnd {c : Char} (h : c.isDigit = true) : authEnd c = false := by
  unfold authEnd
  rw [isDigit_ne h (by decide), isDigit_ne h (by decide), isDigit_ne h (by decide)]
  rfl

theorem takeWhile_path (pt Q F : List Char)
    (hpt : ∀ c ∈ pt, pathEnd c = false)
    (hQ : Q = [] ∨ ∃ qt, Q = '?' :: qt)
    (hF : F = [] ∨ ∃ ft, F = '#' :: ft) :
    ('/' :: (pt ++ (Q ++ F))).takeWhile (fun c => !pathEnd c) = '/' :: pt := by
  have hslash : (fun c => !pathEnd c) '/' = true := by decide
  rw [List.takeWhile_cons, if_pos hslash]
  have hpt' : ∀ c ∈ pt, (fun c => !pathEnd c) c = true :=
    fun c hc => by simp [hpt c hc]
  rcases hQ with rfl | ⟨qt, rfl⟩
  · rcases hF with rfl | ⟨ft, rfl⟩
    · rw [List.nil_append, List.append_nil, takeWhile_all_eq hpt']
    · rw [List.nil_append, takeWhile_append_stop hpt' (by decide)]
  · rcases hF with rfl | ⟨ft, rfl⟩
    · rw [List.append_nil, takeWhile_append_stop hpt' (by decide)]
    · rw [List.cons_append, takeWhile_append_stop hpt' (by decide)]

theorem takeWhile_search (Q F : List Char)
    (_hQ : Q = [] ∨ ∃ qt, Q = '?' :: qt)
    (hQc : ∀ c ∈ Q, (c == '#') = false)
    (hF : F = [] ∨ ∃ ft, F = '#' :: ft) :
    (Q ++ F).takeWhile (fun c => !(c == '#')) = Q := by
  have hQc' : ∀ c ∈ Q, (fun c => !(c == '#')) c = true :=
    fun c hc => by simp [hQc c hc]
  rcases hF with rfl | ⟨ft, rfl⟩
  · rw [List.append_nil, takeWhile_all_eq hQc']
  · exact takeWhile_append_stop hQc' (by decide)

theorem drop_path (pt X : List Char) :
    ('/' :: (pt ++ X)).drop ('/' :: pt).length = X := by
  rw [List.length_cons, List.drop_succ_cons, List.drop_left]

theorem parseURL_build (S H PORT pt Q F : List Char)
    (hSok : schemeOkB S = true) (hSlow : S.map Char.toLower = S)
    (hH : hostOkB H = true) (hHlow : H.map Char.toLower = H)
    (hPORT : PORT.all Char.isDigit = true)
    (hpt : ∀ c ∈ pt, pathEnd c = false)
    (hQ : Q = [] ∨ ∃ qt, Q = '?' :: qt)
    (hQc : ∀ c ∈ Q, (c == '#') = false)
    (hF : F = [] ∨ ∃ ft, F = '#' :: ft) :
    parseURL (String.mk (S ++ ':' :: '/' :: '/' ::
      ((H ++ (if PORT.isEmpty then [] else ':' :: PORT)) ++ ('/' :: (pt ++ (Q ++ F)))))) =
    some ⟨String.mk S, String.mk H, String.mk PORT, String.mk ('/' :: pt),
          String.mk Q, String.mk F⟩ := by
  obtain ⟨hSne, hSall⟩ := schemeOkB_parts hSok
  have hdig : ∀ c ∈ PORT, c.isDigit = true := List.all_eq_true.mp hPORT
  have htw3 := takeWhile_path pt Q F hpt hQ hF
  have htw4 := takeWhile_search Q F hQ hQc hF
  have hdp := drop_path pt (Q ++ F)
  by_cases hpe : PORT.isEmpty
  · have hPnil : PORT = [] := by
      cases PORT with
      | nil => rfl
      | cons a t => cases hpe
    subst hPnil
    rw [show (if ([] : List Char).isEmpty then ([] : List Char) else ':' :: []) = []
      from rfl, List.append_nil]
    have hauth : ∀ c ∈ H, (fun c => !authEnd c) c = true := fun c hc => by
      simp [(hostBad_false_parts (hostOkB_mem hH c hc)).2.1]
    have hnoat : ∀ c ∈ H, (c == '@') = false := fun c hc =>
      (hostBad_false_parts (hostOkB_mem hH c hc)).2.2
    have hnocolon : ∀ c ∈ H, (c == ':') = false := fun c hc =>
      (hostBad_false_parts (hostOkB_mem hH c hc)).1
    have htw1 := takeWhile_append_stop
      (m := '/' :: '/' :: (H ++ ('/' :: (pt ++ (Q ++ F)))))
      hSall (show schemeChar ':' = false by decide)
    have htw2 := takeWhile_append_stop (l := H) (m := pt ++ (Q ++ F))
      hauth (show (fun c => !authEnd c) '/' = false by decide)
    have hafter := afterLastAt_id hnoat
    have hsp := splitPort_no_port hnocolon
    simp only [parseURL, htw1, hSlow, hSok, List.drop_left, htw2, hafter, hsp,
      hHlow, hH, Bool.and_self, htw3, List.isEmpty_cons, hdp, htw4]
    simp
  · have hPcons : (if PORT.isEmpty then ([] : List Char) else ':' :: PORT) = ':' :: PORT := by
      rw [if_neg hpe]
    rw [hPcons]
    have hauth : ∀ c ∈ H ++ ':' :: PORT, (fun c => !authEnd c) c = true := by
      intro c hc
      rcases List.mem_append.mp hc with hc | hc
      · simp [(hostBad_false_parts (hostOkB_mem hH c hc)).2.1]
      · rcases List.mem_cons.mp hc with rfl | hc
        · decide
        · simp [isDigit_authEnd (hdig c hc)]
    have hnoat : ∀ c ∈ H ++ ':' :: PORT, (c == '@') = false := by
      intro c hc
      rcases List.mem_append.mp hc with hc | hc
      · exact (hostBad_false_parts (hostOkB_mem hH c hc)).2.2
      · rcases List.mem_cons.mp hc with rfl | hc
        · decide
        · exact isDigit_ne (hdig c hc) (by decide)
    have hnocolon : ∀ c ∈ H, (c == ':') = false := fun c hc =>
      (hostBad_false_parts (hostOkB_mem hH c hc)).1
    have htw1 := takeWhile_append_stop
      (m := '/' :: '/' :: ((H ++ ':' :: PORT) ++ ('/' :: (pt ++ (Q ++ F)))))
      hSall (show schemeChar ':' = false by decide)
    have htw2 := takeWhile_append_stop (l := H ++ ':' :: PORT) (m := pt ++ (Q ++ F))
      hauth (show (fun c => !authEnd c) '/' = false by decide)
    have hafter := afterLastAt_id hnoat
    have hsp := splitPort_with_port (p := PORT) hnocolon
    simp only [parseURL, htw1, hSlow, hSok, List.drop_left, htw2, hafter, hsp,
      hHlow, hH, hPORT, Bool.and_self, htw3, List.isEmpty_cons, hdp, htw4]
    simp

theorem head_shape_cons {l : List Char} {c : Char} (h : l.head? = some c) :
    ∃ t, l = c :: t := by
  cases l with
  | nil => cases h
  | cons a t =>
    simp only [List.head?_cons, Option.some.injEq] at h
    exact ⟨t, by rw [h]⟩

theorem parse_serialize {r : URLRec} (pr : ParsedProps r) :
    parseURL (serializeURL r) = some r := by
  obtain ⟨hSok, hSlow, hH, hHlow, hPORT, hPathHead, hPathChars, hQ, hQc, hF⟩ := pr
  obtain ⟨pt, hpt⟩ := head_shape_cons hPathHead
  have hpt' : ∀ c ∈ pt, pathEnd c = false := fun c hc =>
    hPathChars c (by rw [hpt]; exact List.mem_cons_of_mem _ hc)
  have hQ' : r.search.data = [] ∨ ∃ qt, r.search.data = '?' :: qt := by
    rcases hQ with h | h
    · exact Or.inl h
    · exact Or.inr (head_shape_cons h)
  have hF' : r.hash.data = [] ∨ ∃ ft, r.hash.data = '#' :: ft := by
    rcases hF with h | h
    · exact Or.inl h
    · exact Or.inr (head_shape_cons h)
  have hser : serializeURL r = String.mk (r.scheme.data ++ ':' :: '/' :: '/' ::
      ((r.hostname.data ++ (if r.port.data.isEmpty then [] else ':' :: r.port.data)) ++
        ('/' :: (pt ++ (r.search.data ++ r.hash.data))))) := by
    unfold serializeURL
    rw [hpt]
    congr 1
    simp [List.append_assoc]
  rw [hser,
    parseURL_build r.scheme.data r.hostname.data r.port.data pt r.search.data r.hash.data
      hSok hSlow hH hHlow hPORT hpt' hQ' hQc hF', ← hpt]

theorem splitRef_chars (l : List Char) :
    (∀ c ∈ (splitRef l).1, pathEnd c = false) ∧
    ((splitRef l).2.1 = [] ∨ (splitRef l).2.1.head? = some '?') ∧
    (∀ c ∈ (splitRef l).2.1, (c == '#') = false) ∧
    ((splitRef l).2.2 = [] ∨ (splitRef l).2.2.head? = some '#') := by
  refine ⟨fun c hc => by simpa using List.mem_takeWhile_imp hc, ?_,
    fun c hc => by simpa using List.mem_takeWhile_imp hc, ?_⟩
  · show (l.drop _).takeWhile _ = [] ∨ ((l.drop _).takeWhile _).head? = some '?'
    rcases head_drop_takeWhile (fun c => !pathEnd c) l with h4 | ⟨c, t, h4, hc⟩
    · left; rw [h4]; rfl
    · have hpe : pathEnd c = true := by simpa using hc
      simp only [pathEnd, Bool.or_eq_true, beq_iff_eq] at hpe
      rcases hpe with hq | hh
      · right
        rw [h4]
        subst hq
        simp [List.takeWhile_cons]
      · left
        rw [h4]
        subst hh
        simp [List.takeWhile_cons]
  · show (splitRef l).2.2 = [] ∨ _
    simp only [splitRef]
    rcases head_drop_takeWhile (fun c => !(c == '#'))
        (l.drop ((l.takeWhile fun c => !pathEnd c)).length) with h5 | ⟨c, t, h5, hc⟩
    · left; exact h5
    · right
      rw [h5]
      have hcc : c = '#' := by simpa using hc
      simp [hcc]

theorem splitRef_head (t : List Char) :
    (splitRef ('/' :: t)).1.head? = some '/' := by
  simp only [splitRef]
  rw [List.takeWhile_cons, if_pos (show ((fun c => !pathEnd c) '/') = true by decide)]
  rfl

theorem dirOf_subset {p : List Char} : ∀ c ∈ dirOf p, c ∈ p := by
  intro c hc
  unfold dirOf at hc
  rw [List.mem_reverse] at hc
  exact List.mem_reverse.mp ((List.dropWhile_suffix _).subset hc)

theorem dirOf_head {p : List Char} (hp : p.head? = some '/') :
    (dirOf p).head? = some '/' := by
  have hmem : '/' ∈ p.reverse := by
    obtain ⟨t, rfl⟩ := head_shape_cons hp
    exact List.mem_reverse.mpr (List.mem_cons_self _ _)
  have hne : p.reverse.dropWhile (fun c => !(c == '/')) ≠ [] := by
    rw [Ne, List.dropWhile_eq_nil_iff]
    intro hall
    have := hall '/' hmem
    simp at this
  obtain ⟨pre, hpre⟩ := List.dropWhile_suffix (l := p.reverse) (fun c => !(c == '/'))
  unfold dirOf
  rw [List.head?_reverse]
  have h1 : (pre ++ p.reverse.dropWhile (fun c => !(c == '/'))).getLast? =
      (p.reverse.dropWhile (fun c => !(c == '/'))).getLast? :=
    List.getLast?_append_of_ne_nil pre hne
  rw [hpre] at h1
  rw [← h1, List.getLast?_reverse, hp]


theorem resolveRel_props {href : List Char} {b r : URLRec}
    (pb : ParsedProps b) (h : resolveRel href b = some r) : ParsedProps r := by
  obtain ⟨hSok, hSlow, hH, hHlow, hPORT, hPathHead, hPathChars, hQ, hQc, hF⟩ := pb
  unfold resolveRel at h
  split at h
  · -- empty reference: copy of the base with the fragment cleared
    rw [Option.some.injEq] at h
    subst h
    exact ⟨hSok, hSlow, hH, hHlow, hPORT, hPathHead, hPathChars, hQ, hQc, Or.inl rfl⟩
  · -- protocol-relative reference: a fresh parse
    exact parseURL_props h
  · -- path-absolute reference
    rename_i t hne
    rw [Option.some.injEq] at h
    subst h
    obtain ⟨c1, c2, c3, c4⟩ := splitRef_chars ('/' :: t)
    exact ⟨hSok, hSlow, hH, hHlow, hPORT, splitRef_head t, c1, c2, c3, c4⟩
  · -- query-only reference
    rename_i t
    rw [Option.some.injEq] at h
    subst h
    refine ⟨hSok, hSlow, hH, hHlow, hPORT, hPathHead, hPathChars, ?_, ?_, ?_⟩
    · right
      rw [List.takeWhile_cons, if_pos (show ((fun c => !(c == '#')) '?') = true by decide)]
      rfl
    · exact fun c hc => by simpa using List.mem_takeWhile_imp hc
    · rcases head_drop_takeWhile (fun c => !(c == '#')) ('?' :: t) with h5 | ⟨c, u, h5, hc⟩
      · left; exact h5
      · right
        rw [h5]
        have hcc : c = '#' := by simpa using hc
        simp [hcc]
  · -- fragment-only reference
    rename_i t
    rw [Option.some.injEq] at h
    subst h
    exact ⟨hSok, hSlow, hH, hHlow, hPORT, hPathHead, hPathChars, hQ, hQc, Or.inr rfl⟩
  · -- relative-path reference: merge with the base directory
    rw [Option.some.injEq] at h
    subst h
    obtain ⟨c1, c2, c3, c4⟩ := splitRef_chars href
    obtain ⟨d, hd⟩ := head_shape_cons (dirOf_head hPathHead)
    refine ⟨hSok, hSlow, hH, hHlow, hPORT, ?_, ?_, c2, c3, c4⟩
    · show (dirOf b.pathname.data ++ (splitRef href).1).head? = some '/'
      rw [hd]
      rfl
    · intro c hc
      rcases List.mem_append.mp hc with hc | hc
      · exact hPathChars c (dirOf_subset c hc)
      · exact c1 c hc

theorem resolveURL_props {href base : String} {r : URLRec}
    (h : resolveURL href base = some r) : ParsedProps r := by
  unfold resolveURL at h
  cases hb : parseURL base with
  | none => rw [hb] at h; cases h
  | some b =>
    simp only [hb] at h
    cases hr : parseURL href with
    | some r0 =>
      simp only [hr] at h
      rw [Option.some.injEq] at h
      subst h
      exact parseURL_props hr
    | none =>
      simp only [hr] at h
      exact resolveRel_props (parseURL_props hb) h

theorem getURLsFromHTML_valid {hrefs : List String} {base u : String}
    (h : u ∈ getURLsFromHTML hrefs base) : (parseURL u).isSome = true := by
  unfold getURLsFromHTML at h
  obtain ⟨href, _, hres⟩ := List.mem_filterMap.mp h
  cases hr : resolveURL href base with
  | none => rw [hr] at hres; cases hres
  | some rc =>
    rw [hr] at hres
    simp only [Option.map_some'] at hres
    rw [Option.some.injEq] at hres
    subst hres
    rw [parse_serialize (resolveURL_props hr)]
    rfl

theorem allLinks_mem {web : Web} {l : String} (h : l ∈ allLinks web) :
    ∃ p ls, (p, some ls) ∈ web ∧ l ∈ ls := by
  induction web with
  | nil => cases h
  | cons pr t ih =>
    obtain ⟨pu, rr⟩ := pr
    simp only [allLinks] at h
    rcases List.mem_append.mp h with h | h
    · cases rr with
      | none => simp only [Option.getD_none] at h; cases h
      | some ls =>
        simp only [Option.getD_some] at h
        exact ⟨pu, ls, List.mem_cons_self _ _, h⟩
    · obtain ⟨p, ls, h1, h2⟩ := ih h
      exact ⟨p, ls, List.mem_cons_of_mem _ h1, h2⟩

theorem crawlList_no_error (web : Web) (base : String) (n : Nat)
    (hok : ∀ cur st, (parseURL cur).isSome = true →
      ∀ e, crawlPage web base n cur st ≠ some (.error e))
    (hlinks : ∀ l ∈ allLinks web, (parseURL l).isSome = true) :
    ∀ (ls : List String) (st : CrawlState), (∀ l ∈ ls, l ∈ allLinks web) →
      ∀ e, crawlList (crawlPage web base n) ls st ≠ some (.error e) := by
  intro ls
  induction ls with
  | nil => intro st _ e h; exact Except.noConfusion (Option.some.inj h)
  | cons u us ih =>
    intro st hmem e h
    simp only [crawlList] at h
    cases hfu : crawlPage web base n u st with
    | none => rw [hfu] at h; exact Option.noConfusion h
    | some rr =>
      cases rr with
      | error e' =>
        exact hok u st (hlinks u (hmem u (List.mem_cons_self _ _))) e' hfu
      | ok s' =>
        rw [hfu] at h
        exact ih s' (fun l hl => hmem l (List.mem_cons_of_mem _ hl)) e h

theorem crawl_no_error (web : Web) (base : String) (bObj : URLRec)
    (hb : parseURL base = some bObj)
    (hlinks : ∀ l ∈ allLinks web, (parseURL l).isSome = true) :
    ∀ (fuel : Nat) (cur : String) (st : CrawlState), (parseURL cur).isSome = true →
      ∀ e, crawlPage web base fuel cur st ≠ some (.error e) := by
  intro fuel
  induction fuel with
  | zero => intro cur st _ e h; exact Option.noConfusion h
  | succ n ih =>
    intro cur st hcur e h
    simp only [crawlPage] at h
    cases hc : parseURL cur with
    | none => rw [hc] at hcur; cases hcur
    | some cObj =>
      simp only [hc, hb] at h
      by_cases hhost : cObj.hostname ≠ bObj.hostname
      · rw [if_pos hhost] at h
        exact Except.noConfusion (Option.some.inj h)
      · rw [if_neg hhost] at h
        by_cases hvis : (lookupCount st.pages (normKey cObj)).getD 0 > 0
        · rw [if_pos hvis] at h
          exact Except.noConfusion (Option.some.inj h)
        · rw [if_neg hvis] at h
          cases hwf : webFetch web cur with
          | none =>
            simp only [hwf] at h
            exact Except.noConfusion (Option.some.inj h)
          | some links =>
            simp only [hwf] at h
            exact crawlList_no_error web base n ih hlinks links _
              (webFetch_links hwf) e h

/-- Claim C8: a malformed current URL is not caught inside `crawlPage` —
the call returns the thrown error, and the sibling loop propagates such an
error instead of continuing; every link produced by `getURLsFromHTML` is
the serialisation of a successfully constructed absolute URL and parses
back successfully; and consequently a crawl whose pages' link lists come
from `getURLsFromHTML`, started from a syntactically valid seed URL, never
raises a malformed-URL error (in particular unreachable or broken pages,
which merely fail to fetch, never fail the run). -/
theorem C8_malformed_propagates :
    (∀ (web : Web) (base cur : String) (fuel : Nat) (st : CrawlState),
      parseURL cur = none →
      crawlPage web base (fuel + 1) cur st = some (.error cur)) ∧
    (∀ (f : String → CrawlState → Option (Except String CrawlState))
      (u : String) (us : List String) (st : CrawlState) (e : String),
      f u st = some (.error e) → crawlList f (u :: us) st = some (.error e)) ∧
    (∀ (hrefs : List String) (base u : String),
      u ∈ getURLsFromHTML hrefs base → (parseURL u).isSome = true) ∧
    (∀ (web : Web) (base : String) (bObj : URLRec), parseURL base = some bObj →
      (∀ p ls, (p, some ls) ∈ web → ∃ hrefs, ls = getURLsFromHTML hrefs base) →
      ∀ (fuel : Nat) (st : CrawlState) (e : String),
        crawlPage web base fuel base st ≠ some (.error e)) := by
  refine ⟨?_, ?_, ?_, ?_⟩
  · intro web base cur fuel st hc
    simp only [crawlPage, hc]
  · intro f u us st e hf
    simp only [crawlList, hf]
  · intro hrefs base u hu
    exact getURLsFromHTML_valid hu
  · intro web base bObj hb hweb fuel st e
    refine crawl_no_error web base bObj hb ?_ fuel base st (by rw [hb]; rfl) e
    intro l hl
    obtain ⟨p, ls, hpls, hlin⟩ := allLinks_mem hl
    obtain ⟨hrefs, rfl⟩ := hweb p ls hpls
    exact getURLsFromHTML_valid hlin

/-- Witness for C8: each hypothesis-bearing conjunct applied at a concrete
input — a malformed current URL, an erroring sibling, a resolved link, and
a one-page web whose link list comes from `getURLsFromHTML`. -/
theorem C8_malformed_propagates_witness :
    crawlPage [] "http://a.com" 3 "not a url" ⟨[], []⟩ = some (.error "not a url") ∧
    crawlList (fun _ _ => some (.error "boom")) ["u1", "u2"] ⟨[], []⟩ =
      some (.error "boom") ∧
    (parseURL "http://a.com/x").isSome = true ∧
    crawlPage [("http://a.com", some (getURLsFromHTML ["/x"] "http://a.com"))]
      "http://a.com" 5 "http://a.com" ⟨[], []⟩ ≠ some (.error "http://a.com") := by
  refine ⟨C8_malformed_propagates.1 [] "http://a.com" "not a url" 2 ⟨[], []⟩ (by decide),
    C8_malformed_propagates.2.1 _ "u1" ["u2"] ⟨[], []⟩ "boom" rfl,
    C8_malformed_propagates.2.2.1 ["/x"] "http://a.com" "http://a.com/x" (by decide),
    C8_malformed_propagates.2.2.2 _ "http://a.com" ⟨"http", "a.com", "", "/", "", ""⟩
      (by decide) ?_ 5 ⟨[], []⟩ "http://a.com"⟩
  intro p ls hp
  rw [List.mem_singleton, Prod.mk.injEq] at hp
  exact ⟨["/x"], Option.some.inj hp.2⟩
